import Mathlib

/-!
# Verification of the `void` editor's LSP core

A shallow embedding, in Lean 4, of the LSP client core of the `void`
repository (Go), together with proofs about it.

Modelling conventions, used throughout:

* A Go string is represented by its sequence of runes (Unicode codepoints),
  i.e. a `List Nat`.  All the functions verified here either iterate over
  `[]rune(s)` directly or iterate over bytes looking for the one-byte rune
  `'\n'` (which in UTF-8 can only occur as that standalone codepoint), so the
  rune-level view is faithful.
* Go `int`/`uint32` counters that only ever hold counts (lengths, offsets,
  sums of nonnegative widths) are represented by `Nat`; none of the embedded
  code can make them negative or overflow in practice, and dead negative
  checks in the source are noted where they occur.
* Filesystem paths and URIs, where their characters matter, are represented
  as `List Char` (the rune sequence of the Go string).
-/

namespace Void

/-! ## Position codec (src/unnamed/part_005, lines 300-368)

The LSP wire protocol addresses positions by UTF-16 code units; the editor's
buffer addresses them by rune offset.  These are the pure conversion
functions.
-/

/-- UTF-16 width of a single rune: one code unit for codepoints that fit in
16 bits, two (a surrogate pair) otherwise.  This is the `if r <= 0xFFFF`
test inside `runeColToUTF16` / `utf16OffsetToRune`. -/
def utf16Width (r : Nat) : Nat :=
  if r ≤ 0xFFFF then 1 else 2

/-- `runeColToUTF16(line, runeCol)`: the UTF-16 code-unit offset of the given
rune column.  The Go source clamps `runeCol` to `len(runes)` and sums the
UTF-16 widths of `runes[:runeCol]`; `List.take` performs the same clamping. -/
def runeColToUTF16 (line : List Nat) (runeCol : Nat) : Nat :=
  ((line.take runeCol).map utf16Width).sum

/-- The loop of `utf16OffsetToRune`: walks the runes with index `i` and
accumulated UTF-16 width `n`; returns `i` as soon as `n >= utf16Offset`,
and the total rune count when the line is exhausted. -/
def utf16OffsetToRuneGo : List Nat → Nat → Nat → Nat → Nat
  | [], _, i, _ => i
  | r :: rs, target, i, n =>
    if target ≤ n then i else utf16OffsetToRuneGo rs target (i + 1) (n + utf16Width r)

/-- `utf16OffsetToRune(line, utf16Offset)`: the rune index in `line` of the
given UTF-16 code-unit offset (clamped to the end of the line). -/
def utf16OffsetToRune (line : List Nat) (utf16Offset : Nat) : Nat :=
  utf16OffsetToRuneGo line utf16Offset 0 0

/-- `splitLines(s)`: split at each `'\n'` (rune value 10), keeping a final
(possibly empty) segment, exactly like the Go byte loop that appends
`s[start:i]` at each `'\n'` and `s[start:]` at the end.  The result is
always nonempty. -/
def splitLines : List Nat → List (List Nat)
  | [] => [[]]
  | c :: cs =>
    if c = 10 then [] :: splitLines cs
    else
      match splitLines cs with
      | l :: ls => (c :: l) :: ls
      | [] => [[c]]

/-- The accumulation loop of `PositionToRuneOffset`:
`for i := 0; i < line; i++ { offset += len([]rune(lines[i])) + 1 }`.
`List.getD` is the in-bounds index `lines[i]` (the source only runs the loop
with `line < len(lines)`, so every index is in range). -/
def prevLinesLen (lines : List (List Nat)) : Nat → Nat
  | 0 => 0
  | k + 1 => prevLinesLen lines k + (lines.getD k []).length + 1

/-- `PositionToRuneOffset(text, line, character)`: LSP line/character (the
character in UTF-16 code units) to rune offset in `text`.  A line number at
or past the number of lines yields the total rune length of the text
(`int(line) >= len(lines)` in the source); otherwise the result is the
rune column on that line plus the rune lengths of all preceding lines,
plus one per line separator. -/
def PositionToRuneOffset (text : List Nat) (line character : Nat) : Nat :=
  if (splitLines text).length ≤ line then text.length
  else
    prevLinesLen (splitLines text) line +
      utf16OffsetToRune ((splitLines text).getD line []) character

/-- LSP `Position` (protocol wire type): zero-based line and UTF-16
character offset, both `uint32` in Go. -/
structure Position where
  line : Nat
  character : Nat
  deriving DecidableEq, Repr

/-- LSP `Range`: start and end positions.  (`end` is a Lean keyword, so the
second field is named `endPos`.) -/
structure Range where
  start : Position
  endPos : Position
  deriving DecidableEq, Repr

/-- `RangeToRuneOffsets(text, r)`: rune offsets of both endpoints. -/
def RangeToRuneOffsets (text : List Nat) (r : Range) : Nat × Nat :=
  (PositionToRuneOffset text r.start.line r.start.character,
   PositionToRuneOffset text r.endPos.line r.endPos.character)

/-! ### Spec-side renderings of `offsetOf` (spec.md §4.2)

`offsetOfClaimSpec` follows the spec's words literally: it *clamps the line
number into range* and converts the character on that clamped line.
`offsetOfAmendedSpec` differs only where the clamping reading and the code
disagree: an out-of-range line yields the rune length of the whole text. -/

/-- Rendering of the spec sentence "splits text into lines, clamps `line`
into range, converts `character` via the inverse mapping for that line, and
adds the rune-length of all preceding lines plus one per line separator". -/
def offsetOfClaimSpec (text : List Nat) (line character : Nat) : Nat :=
  ((((splitLines text).take (min line ((splitLines text).length - 1))).map
      (fun s => s.length + 1)).sum) +
    utf16OffsetToRune
      ((splitLines text).getD (min line ((splitLines text).length - 1)) [])
      character

/-- The same spec sentence amended at the single point the code forces: a
line number at or past the number of lines yields the rune length of the
whole text (the document end) instead of a conversion on the last line. -/
def offsetOfAmendedSpec (text : List Nat) (line character : Nat) : Nat :=
  if line < (splitLines text).length then
    ((((splitLines text).take line).map (fun s => s.length + 1)).sum) +
      utf16OffsetToRune ((splitLines text).getD line []) character
  else text.length

/-! ### Codec lemmas -/

theorem utf16Width_pos (r : Nat) : 1 ≤ utf16Width r := by
  unfold utf16Width; split <;> omega

theorem utf16OffsetToRuneGo_roundtrip :
    ∀ (s : List Nat) (c i n : Nat), c ≤ s.length →
      utf16OffsetToRuneGo s (n + ((s.take c).map utf16Width).sum) i n = i + c := by
  intro s
  induction s with
  | nil =>
    intro c i n hc
    have hc0 : c = 0 := by simpa using hc
    subst hc0
    simp [utf16OffsetToRuneGo]
  | cons r rs ih =>
    intro c i n hc
    cases c with
    | zero => simp [utf16OffsetToRuneGo]
    | succ k =>
      have hk : k ≤ rs.length := by simpa using hc
      have hw := utf16Width_pos r
      rw [List.take_succ_cons, List.map_cons, List.sum_cons]
      unfold utf16OffsetToRuneGo
      rw [if_neg (by omega)]
      have := ih k (i + 1) (n + utf16Width r) hk
      rw [show n + (utf16Width r + ((rs.take k).map utf16Width).sum)
            = n + utf16Width r + ((rs.take k).map utf16Width).sum by omega]
      omega

/-- Round-trip: converting a valid rune column to UTF-16 and back is the
identity. -/
theorem utf16_roundtrip (s : List Nat) (c : Nat) (hc : c ≤ s.length) :
    utf16OffsetToRune s (runeColToUTF16 s c) = c := by
  have := utf16OffsetToRuneGo_roundtrip s c 0 0 hc
  simpa [utf16OffsetToRune, runeColToUTF16] using this

theorem utf16OffsetToRuneGo_le :
    ∀ (s : List Nat) (t i n : Nat), utf16OffsetToRuneGo s t i n ≤ i + s.length := by
  intro s
  induction s with
  | nil => intro t i n; simp [utf16OffsetToRuneGo]
  | cons r rs ih =>
    intro t i n
    unfold utf16OffsetToRuneGo
    split
    · omega
    · have := ih t (i + 1) (n + utf16Width r)
      simpa using by omega

theorem utf16OffsetToRune_le (line : List Nat) (off : Nat) :
    utf16OffsetToRune line off ≤ line.length := by
  have := utf16OffsetToRuneGo_le line off 0 0
  simpa [utf16OffsetToRune] using this

theorem splitLines_ne_nil (t : List Nat) : splitLines t ≠ [] := by
  cases t with
  | nil => simp [splitLines]
  | cons c cs =>
    unfold splitLines
    split
    · simp
    · cases h : splitLines cs <;> simp

/-- Rune accounting of `splitLines`: the lines' rune lengths plus one
separator between consecutive lines make up the whole text. -/
theorem splitLines_sum (t : List Nat) :
    ((splitLines t).map List.length).sum + (splitLines t).length = t.length + 1 := by
  induction t with
  | nil => simp [splitLines]
  | cons c cs ih =>
    unfold splitLines
    split
    · simp only [List.map_cons, List.sum_cons, List.length_cons, List.length_nil]
      omega
    · cases h : splitLines cs with
      | nil => exact absurd h (splitLines_ne_nil cs)
      | cons l ls =>
        rw [h] at ih
        simp only [List.map_cons, List.sum_cons, List.length_cons] at ih ⊢
        omega

theorem prevLinesLen_cons (l : List Nat) (ls : List (List Nat)) :
    ∀ k, prevLinesLen (l :: ls) (k + 1) = l.length + 1 + prevLinesLen ls k := by
  intro k
  induction k with
  | zero => simp [prevLinesLen]
  | succ m ih =>
    show prevLinesLen (l :: ls) (m + 1) + ((l :: ls).getD (m + 1) []).length + 1 = _
    rw [ih]
    show _ = l.length + 1 + (prevLinesLen ls m + (ls.getD m []).length + 1)
    simp [List.getD_cons_succ]
    omega

theorem prevLinesLen_take :
    ∀ (lines : List (List Nat)) (k : Nat), k ≤ lines.length →
      prevLinesLen lines k = ((lines.take k).map (fun s => s.length + 1)).sum := by
  intro lines
  induction lines with
  | nil =>
    intro k hk
    have hk0 : k = 0 := by simpa using hk
    subst hk0
    simp [prevLinesLen]
  | cons l ls ih =>
    intro k hk
    cases k with
    | zero => simp [prevLinesLen]
    | succ m =>
      rw [prevLinesLen_cons]
      rw [ih m (by simpa using hk)]
      simp only [List.take_succ_cons, List.map_cons, List.sum_cons]
      try omega

theorem prevLinesLen_mono (lines : List (List Nat)) {k k' : Nat} (h : k ≤ k') :
    prevLinesLen lines k ≤ prevLinesLen lines k' := by
  induction k' with
  | zero =>
    have hk0 : k = 0 := by omega
    subst hk0
    exact le_refl _
  | succ m ih =>
    have hstep : prevLinesLen lines m ≤ prevLinesLen lines (m + 1) := by
      show prevLinesLen lines m ≤
        prevLinesLen lines m + (lines.getD m []).length + 1
      omega
    rcases Nat.lt_or_ge k (m + 1) with hlt | hge
    · exact le_trans (ih (by omega)) hstep
    · have hk : k = m + 1 := by omega
      subst hk
      exact le_refl _

theorem prevLinesLen_add_le :
    ∀ (lines : List (List Nat)) (k : Nat), k < lines.length →
      prevLinesLen lines k + (lines.getD k []).length + 1 ≤
        (lines.map List.length).sum + lines.length := by
  intro lines
  induction lines with
  | nil => intro k hk; simp at hk
  | cons l ls ih =>
    intro k hk
    cases k with
    | zero =>
      simp only [prevLinesLen, List.getD_cons_zero, List.map_cons,
        List.sum_cons, List.length_cons]
      omega
    | succ m =>
      have hm : m < ls.length := by simpa using hk
      have hih := ih m hm
      rw [prevLinesLen_cons]
      simp only [List.getD_cons_succ, List.map_cons, List.sum_cons,
        List.length_cons]
      omega

theorem splitLines_length_pos (t : List Nat) : 1 ≤ (splitLines t).length := by
  have := splitLines_ne_nil t
  cases hsl : splitLines t with
  | nil => exact absurd hsl this
  | cons a as => simp

/-- `PositionToRuneOffset` never exceeds the rune length of the text. -/
theorem PositionToRuneOffset_le (text : List Nat) (line ch : Nat) :
    PositionToRuneOffset text line ch ≤ text.length := by
  unfold PositionToRuneOffset
  split
  · omega
  · rename_i h
    have hlt : line < (splitLines text).length := by omega
    have h1 := prevLinesLen_add_le (splitLines text) line hlt
    have h2 := utf16OffsetToRune_le ((splitLines text).getD line []) ch
    have h3 := splitLines_sum text
    omega

/-- On a rune-boundary character offset and an in-range line,
`PositionToRuneOffset` is the preceding-lines length plus the rune column. -/
theorem PositionToRuneOffset_boundary (text : List Nat) (line k : Nat)
    (hl : line < (splitLines text).length)
    (hk : k ≤ ((splitLines text).getD line []).length) :
    PositionToRuneOffset text line
        (runeColToUTF16 ((splitLines text).getD line []) k) =
      prevLinesLen (splitLines text) line + k := by
  unfold PositionToRuneOffset
  rw [if_neg (by omega), utf16_roundtrip _ _ hk]

/-! ## Diagnostics decorations (src/unnamed/part_006, `applyDiagnostics`)

`applyDiagnostics` converts each LSP diagnostic into a gvcode squiggle
decoration, clamping the rune span to the document and widening zero-length
spans.  The editor mutation (`ClearDecorations`/`AddDecorations`) is
modelled by returning the list of decorations the loop builds. -/

/-- `color.NRGBA` (Go standard library). -/
structure NRGBA where
  r : Nat
  g : Nat
  b : Nat
  a : Nat
  deriving DecidableEq, Repr

/-- `errorColor` from part_006. -/
def errorColor : NRGBA := ⟨0xf4, 0x43, 0x36, 0xff⟩

/-- `warningColor` from part_006. -/
def warningColor : NRGBA := ⟨0xff, 0x98, 0x00, 0xff⟩

/-- `DecorationSource = "lsp"` (src/unnamed/part_005). -/
def DecorationSource : String := "lsp"

/-- `protocol.DiagnosticSeverity` is a wire-format number; the source only
distinguishes `Warning`. -/
def DiagnosticSeverityWarning : Nat := 2

/-- An LSP diagnostic, restricted to the fields `applyDiagnostics` reads:
its range and its severity. -/
structure Diagnostic where
  range : Range
  severity : Nat
  deriving DecidableEq, Repr

/-- A gvcode `decoration.Decoration` as built by `applyDiagnostics`:
source tag, start/end rune offsets and the squiggle color. -/
structure Decoration where
  source : String
  start : Nat
  stop : Nat
  squiggleColor : NRGBA
  deriving DecidableEq, Repr

/-- The span computation of one iteration of the `applyDiagnostics` loop:
convert the range, clamp the end to the document (`start < 0` cannot fire on
the `Nat`-valued offsets, exactly as it cannot on the nonnegative Go
results), widen an empty span by one, re-clamp, and drop the span
(`continue`) if it is still empty. -/
def decoSpan (text : List Nat) (r : Range) : Option (Nat × Nat) :=
  let se := RangeToRuneOffsets text r
  let start := se.1
  let e := if text.length < se.2 then text.length else se.2
  if e ≤ start then
    let e2 := start + 1
    let e3 := if text.length < e2 then text.length else e2
    if e3 ≤ start then none else some (start, e3)
  else some (start, e)

/-- The full loop of `applyDiagnostics`: one optional decoration per
diagnostic, with the severity-dependent squiggle color. -/
def applyDiagnostics (text : List Nat) (diagnostics : List Diagnostic) :
    List Decoration :=
  diagnostics.filterMap fun d =>
    (decoSpan text d.range).map fun se =>
      { source := DecorationSource
        start := se.1
        stop := se.2
        squiggleColor :=
          if d.severity = DiagnosticSeverityWarning then warningColor
          else errorColor }

/-! ### Decoration lemmas -/

theorem decoSpan_cases (text : List Nat) (r : Range) :
    decoSpan text r =
      if (RangeToRuneOffsets text r).1 < (RangeToRuneOffsets text r).2 then
        some ((RangeToRuneOffsets text r).1, (RangeToRuneOffsets text r).2)
      else if (RangeToRuneOffsets text r).1 < text.length then
        some ((RangeToRuneOffsets text r).1, (RangeToRuneOffsets text r).1 + 1)
      else none := by
  have hs := PositionToRuneOffset_le text r.start.line r.start.character
  have he := PositionToRuneOffset_le text r.endPos.line r.endPos.character
  unfold decoSpan RangeToRuneOffsets at *
  dsimp only at *
  generalize hP1 : PositionToRuneOffset text r.start.line r.start.character = ps at *
  generalize hP2 : PositionToRuneOffset text r.endPos.line r.endPos.character = pe at *
  split_ifs <;> first | rfl | omega

theorem decoSpan_sound (text : List Nat) (r : Range) (s e : Nat)
    (h : decoSpan text r = some (s, e)) :
    s < e ∧ e ≤ text.length := by
  have hs := PositionToRuneOffset_le text r.start.line r.start.character
  have he := PositionToRuneOffset_le text r.endPos.line r.endPos.character
  rw [decoSpan_cases] at h
  unfold RangeToRuneOffsets at *
  dsimp only at *
  split at h
  · simp only [Option.some.injEq, Prod.mk.injEq] at h
    omega
  · split at h
    · simp only [Option.some.injEq, Prod.mk.injEq] at h
      omega
    · exact absurd h (by simp)

/-! ## Strings and filesystem paths (Go standard library models)

The repository runs these standard-library functions on Unix paths:
`strings.ToLower`, `filepath.Ext`, `filepath.Clean`, `filepath.Abs`,
`filepath.Join`, `filepath.FromSlash` (the identity on Unix, so it does not
appear below), and `os.IsPathSeparator` (which on Unix is `== '/'`).
`filepath.Abs` reads the process working directory; it is passed in
explicitly as `cwd` (with `cwd` given, `Abs` cannot fail, so the source's
fallback branch for a failing `Abs` is unreachable).  `strings.ToLower` is
modelled on its ASCII fragment, which is all the verified call sites feed
it. -/

/-- `strings.ToLower` on one ASCII character. -/
def ToLowerChar (c : Char) : Char :=
  if 'A' ≤ c ∧ c ≤ 'Z' then Char.ofNat (c.toNat + 32) else c

/-- `strings.ToLower`. -/
def ToLower (s : List Char) : List Char := s.map ToLowerChar

/-- The scan of `filepath.Ext` from the end of the path: walk the reversed
path until a path separator; the extension is the suffix from the last
`'.'`.  `acc` is the suffix scanned so far, in original order. -/
def extScan : List Char → List Char → Option (List Char)
  | [], _ => none
  | c :: rest, acc =>
    if c = '/' then none
    else if c = '.' then some (c :: acc)
    else extScan rest (c :: acc)

/-- `filepath.Ext(path)`: the suffix beginning at the final dot in the final
path element, or the empty string. -/
def Ext (path : List Char) : List Char :=
  (extScan path.reverse []).getD []

/-- The element-stack loop of `filepath.Clean` (Unix): empty and `"."`
elements are dropped; `".."` pops a previous element, is dropped at the root
of a rooted path, and is kept when there is nothing left to pop in a relative
path.  `stack` holds the output elements in reverse. -/
def cleanStack (rooted : Bool) : List (List Char) → List (List Char) → List (List Char)
  | stack, [] => stack.reverse
  | stack, comp :: comps =>
    if comp = [] ∨ comp = ['.'] then cleanStack rooted stack comps
    else if comp = ['.', '.'] then
      match stack with
      | top :: rest =>
        if top = ['.', '.'] then cleanStack rooted (comp :: top :: rest) comps
        else cleanStack rooted rest comps
      | [] =>
        if rooted then cleanStack rooted [] comps
        else cleanStack rooted [comp] comps
    else cleanStack rooted (comp :: stack) comps

/-- `filepath.Clean` (Unix): shortest lexically-equivalent path.  The empty
path cleans to `"."`; a rooted result keeps its leading slash; an emptied
relative result is `"."`. -/
def Clean (path : List Char) : List Char :=
  if path = [] then ['.']
  else
    if path.head? = some '/' then
      '/' :: (List.intercalate ['/'] (cleanStack true [] (path.splitOn '/')))
    else
      match List.intercalate ['/'] (cleanStack false [] (path.splitOn '/')) with
      | [] => ['.']
      | out => out

/-- `filepath.IsAbs` (Unix): the path starts with `'/'`. -/
def IsAbs (path : List Char) : Bool := path.head? = some '/'

/-- `filepath.Join` of two parts (Unix): empty parts are skipped and the
result is `Clean`ed. -/
def Join2 (a b : List Char) : List Char :=
  if a = [] then Clean b
  else if b = [] then Clean a
  else Clean (a ++ '/' :: b)

/-- `filepath.Abs` (Unix) with the working directory passed explicitly:
an absolute path is just cleaned, a relative one is joined onto `cwd`. -/
def Abs (cwd path : List Char) : List Char :=
  if IsAbs path then Clean path else Join2 cwd path

/-! ## URL parsing (`net/url.ParseRequestURI`, the fragment `diagKey` uses)

Only the pieces of `url.Parse` that determine `u.Scheme` and `u.Path` for a
request URI are modelled: the scheme scanner `getScheme`, the cut of the
query at the first `'?'`, the opaque (no leading slash) case, the authority
split after `"//"`, and percent-decoding of the path with validation of the
escape sequences.  Host-character validation and fragment handling are not
modelled (no verified input exercises them). -/

def isAlphaChar (c : Char) : Bool :=
  decide (('a' ≤ c ∧ c ≤ 'z') ∨ ('A' ≤ c ∧ c ≤ 'Z'))

def isDigitChar (c : Char) : Bool :=
  decide ('0' ≤ c ∧ c ≤ '9')

/-- Hex digit value, for percent escapes. -/
def hexVal (c : Char) : Option Nat :=
  if '0' ≤ c ∧ c ≤ '9' then some (c.toNat - 48)
  else if 'a' ≤ c ∧ c ≤ 'f' then some (c.toNat - 87)
  else if 'A' ≤ c ∧ c ≤ 'F' then some (c.toNat - 55)
  else none

/-- `url.unescape` in path mode: each `'%'` must be followed by exactly two
hex digits and decodes to that byte; any other character passes through.
(`none` models the unescape error, which fails the whole parse.) -/
def percentDecode : List Char → Option (List Char)
  | [] => some []
  | '%' :: a :: b :: rest =>
    match hexVal a, hexVal b, percentDecode rest with
    | some x, some y, some r => some (Char.ofNat (16 * x + y) :: r)
    | _, _, _ => none
  | '%' :: _ => none
  | c :: rest => (percentDecode rest).map (c :: ·)

/-- The loop of `url.getScheme`: `none` is the hard error (a `':'` before
any scheme character); `some ([], raw)` means "no scheme, the input is all
path"; otherwise the scheme and the part after the `':'`.  `acc` is the
scheme scanned so far, reversed. -/
def getSchemeAux (raw : List Char) : List Char → List Char → Option (List Char × List Char)
  | [], _ => some ([], raw)
  | c :: rest, acc =>
    if c = ':' then
      if acc.isEmpty then none else some (acc.reverse, rest)
    else if isAlphaChar c then getSchemeAux raw rest (c :: acc)
    else if isDigitChar c || c = '+' || c = '-' || c = '.' then
      if acc.isEmpty then some ([], raw) else getSchemeAux raw rest (c :: acc)
    else some ([], raw)

def getScheme (raw : List Char) : Option (List Char × List Char) :=
  getSchemeAux raw raw []

/-- The fields of `url.URL` that `diagKey` reads. -/
structure URL where
  scheme : List Char
  host : List Char
  path : List Char
  deriving DecidableEq, Repr

/-- `url.ParseRequestURI`: scheme, query cut, opaque/authority/path cases;
`none` is a parse error.  The opaque case leaves `path` empty, exactly as
`u.Path` is empty when only `u.Opaque` is set. -/
def ParseRequestURI (rawURL : List Char) : Option URL :=
  match getScheme rawURL with
  | none => none
  | some (schemeRaw, restAll) =>
    let scheme := ToLower schemeRaw
    let rest := restAll.takeWhile (fun c => c ≠ '?')
    if rest.head? ≠ some '/' then
      if scheme ≠ [] then some { scheme := scheme, host := [], path := [] }
      else none
    else if rest.take 2 = ['/', '/'] then
      let afterSlashes := rest.drop 2
      let host := afterSlashes.takeWhile (fun c => c ≠ '/')
      match percentDecode (afterSlashes.dropWhile (fun c => c ≠ '/')) with
      | some p => some { scheme := scheme, host := host, path := p }
      | none => none
    else
      match percentDecode rest with
      | some p => some { scheme := scheme, host := [], path := p }
      | none => none

/-! ## Diagnostics routing (src/unnamed/part_005, lines 149-209) -/

/-- The Windows drive-letter adjustment inside `diagKey`: a path of the form
`/c:...` (leading slash, a one-character drive, then `':'` at byte 2) loses
the leading slash. -/
def dropDriveSlash (path : List Char) : List Char :=
  match path with
  | '/' :: d :: ':' :: rest => d :: ':' :: rest
  | p => p

/-- `diagKey(documentURI)`: the canonical handler-map key.  A URI that fails
to parse, or whose scheme is not `file`, keys by its raw text; otherwise the
key is the canonicalized absolute form of its (percent-decoded) path.
`cwd` is the process working directory `filepath.Abs` consults. -/
def diagKey (cwd : List Char) (documentURI : List Char) : List Char :=
  match ParseRequestURI documentURI with
  | none => documentURI
  | some u =>
    if u.scheme ≠ "file".toList then documentURI
    else Abs cwd (dropDriveSlash u.path)

/-- The diagnostics-handler map of a `Client` — the only state
`RegisterDiagnosticsHandler` / `PublishDiagnostics` touch.  The Go map
`map[string]PerDocumentDiagnosticsHandler` is modelled as a lookup function;
handlers are opaque values of a type parameter `H`.  The client's mutex
serializes map accesses, so each locked section is one atomic operation
here. -/
structure ClientDiag (H : Type) where
  diagHandlers : List Char → Option H

/-- `RegisterDiagnosticsHandler(documentURI, fn)`: stores `fn` under the
normalized key; a nil handler (`none`) deletes the entry. -/
def RegisterDiagnosticsHandler {H : Type} (c : ClientDiag H) (cwd documentURI : List Char)
    (fn : Option H) : ClientDiag H :=
  { diagHandlers := fun k =>
      if k = diagKey cwd documentURI then fn else c.diagHandlers k }

/-- The wire parameters of a `publishDiagnostics` notification. -/
structure PublishDiagnosticsParams where
  uri : List Char
  diagnostics : List Diagnostic

/-- `Client.PublishDiagnostics`: looks the normalized key up and invokes the
handler when present.  The result records the (unchanged) handler map, the
handler invocations performed (at most one), and the returned Go error,
which is always nil (`none`). -/
def PublishDiagnostics {H : Type} (c : ClientDiag H) (cwd : List Char)
    (params : Option PublishDiagnosticsParams) :
    ClientDiag H × List (H × List Diagnostic) × Option String :=
  match params with
  | none => (c, [], none)
  | some p =>
    match c.diagHandlers (diagKey cwd p.uri) with
    | some fn => (c, [(fn, p.diagnostics)], none)
    | none => (c, [], none)

/-! ## Completion adapter (src/unnamed/part_004, `completionItemToCandidate`) -/

/-- `protocol.InsertTextFormatPlainText` (wire value 1). -/
def InsertTextFormatPlainText : Nat := 1

/-- `protocol.InsertTextFormatSnippet` (wire value 2). -/
def InsertTextFormatSnippet : Nat := 2

/-- `protocol.TextEdit`: a replacement range and its new text. -/
structure TextEdit where
  range : Range
  newText : String
  deriving DecidableEq, Repr

/-- The dynamically-typed `Documentation interface{}` field: the source only
probes whether it is a plain Go string; every other shape (e.g. a
`MarkupContent` value) is `other`. -/
inductive DocumentationValue
  | str (s : String)
  | other
  deriving DecidableEq, Repr

/-- `protocol.CompletionItem`, restricted to the fields
`completionItemToCandidate` reads.  `kind` and `insertTextFormat` are the
wire-format numbers. -/
structure CompletionItem where
  label : String
  insertText : String
  textEdit : Option TextEdit
  insertTextFormat : Nat
  kind : Nat
  detail : String
  documentation : Option DocumentationValue
  deriving DecidableEq, Repr

/-- `gvcode.CompletionCandidate` as built by the adapter; the nested
`TextEdit.EditRange` rune positions are flattened to `editStart`/`editEnd`. -/
structure CompletionCandidate where
  label : String
  newText : String
  editStart : Nat
  editEnd : Nat
  description : String
  kind : String
  textFormat : String
  deriving DecidableEq, Repr

/-- `lspKindToString`: the coarse kind tag for a wire-format
`protocol.CompletionItemKind` number. -/
def lspKindToString : Nat → String
  | 2 => "method"        -- protocol.CompletionItemKindMethod
  | 3 => "function"      -- protocol.CompletionItemKindFunction
  | 4 => "constructor"   -- protocol.CompletionItemKindConstructor
  | 5 => "field"         -- protocol.CompletionItemKindField
  | 6 => "variable"      -- protocol.CompletionItemKindVariable
  | 7 => "class"         -- protocol.CompletionItemKindClass
  | 8 => "interface"     -- protocol.CompletionItemKindInterface
  | 9 => "module"        -- protocol.CompletionItemKindModule
  | 10 => "property"     -- protocol.CompletionItemKindProperty
  | 14 => "keyword"      -- protocol.CompletionItemKindKeyword
  | 15 => "snippet"      -- protocol.CompletionItemKindSnippet
  | 22 => "struct"       -- protocol.CompletionItemKindStruct
  | 21 => "constant"     -- protocol.CompletionItemKindConstant
  | _ => "text"

/-- `completionItemToCandidate(item, caretRunes)`.  Insertion text: the
label, overridden by a non-empty `insertText`, overridden by the text of a
present `textEdit`.  Both edit-range endpoints are the caret (the source's
range branch reassigns the same values).  The description falls back from
`detail` to string-typed documentation.  The format flag is `"Snippet"`
exactly for the snippet insert-text format. -/
def completionItemToCandidate (item : CompletionItem) (caretRunes : Nat) :
    CompletionCandidate :=
  { label := item.label
    newText :=
      match item.textEdit with
      | some te => te.newText
      | none => if item.insertText ≠ "" then item.insertText else item.label
    editStart := caretRunes
    editEnd := caretRunes
    description :=
      if item.detail = "" then
        match item.documentation with
        | some (.str s) => s
        | _ => ""
      else item.detail
    kind := lspKindToString item.kind
    textFormat :=
      if item.insertTextFormat = InsertTextFormatSnippet then "Snippet"
      else "PlainText" }

/-! ## Config resolver (src/unnamed/part_004, lines 1-77) -/

/-- `ServerEntry`: one language server registration. -/
structure ServerEntry where
  languageID : List Char
  extensions : List (List Char)
  command : List Char
  args : List (List Char)
  deriving DecidableEq, Repr

/-- `Config`: the ordered server registry. -/
structure Config where
  servers : List ServerEntry
  deriving DecidableEq, Repr

/-- `DefaultConfig()`: the built-in registry — a single Go entry. -/
def DefaultConfig : Config :=
  { servers :=
      [{ languageID := "go".toList
         extensions := [".go".toList]
         command := "gopls".toList
         args := [] }] }

/-- The inner loop of `ServerForFile`: does any of the entry's extensions,
lowercased, equal the (already lowercased) file extension? -/
def entryMatches (e : ServerEntry) (ext : List Char) : Bool :=
  e.extensions.any fun eext => ToLower eext == ext

/-- The outer loop of `ServerForFile`: first matching entry. -/
def serverLoop : List ServerEntry → List Char → Option ServerEntry
  | [], _ => none
  | e :: rest, ext =>
    if entryMatches e ext then some e else serverLoop rest ext

/-- `Config.ServerForFile(path)`: lowercases the file's extension and scans
the registry in order.  (The nil-receiver guard of the source corresponds to
having a `Config` value at all here.) -/
def Config.ServerForFile (c : Config) (path : List Char) : Option ServerEntry :=
  serverLoop c.servers (ToLower (Ext path))

/-- The two candidate config paths of `LoadConfig`, in search order:
`<projectRoot>/.void/lsp.json`, then `<os.UserConfigDir()>/void/lsp.json`
when the user config directory resolves (`userConfigDir = none` models an
`os.UserConfigDir` error, which drops the second candidate). -/
def configCandidatePaths (projectRoot : List Char)
    (userConfigDir : Option (List Char)) : List (List Char) :=
  [Join2 projectRoot ".void/lsp.json".toList] ++
    match userConfigDir with
    | some d => [Join2 d "void/lsp.json".toList]
    | none => []

/-- `LoadConfig(projectRoot)`.  Reading and JSON-decoding a candidate file
are modelled by one oracle `readParse : path ↦ Option Config`: `none` when
the file is missing, unreadable, or fails to unmarshal (the source
`continue`s in both cases), `some c` when it parses.  The first success
wins; otherwise the built-in default. -/
def loadConfigLoop (readParse : List Char → Option Config) :
    List (List Char) → Option Config
  | [] => none
  | p :: rest =>
    match readParse p with
    | some c => some c
    | none => loadConfigLoop readParse rest

def LoadConfig (readParse : List Char → Option Config)
    (projectRoot : List Char) (userConfigDir : Option (List Char)) : Config :=
  match loadConfigLoop readParse (configCandidatePaths projectRoot userConfigDir) with
  | some c => c
  | none => DefaultConfig

/-! ## Client manager (src/lsp/manager.go, `Manager.ClientFor`)

`ClientFor` is embedded as a transition system over the interleavings of any
number of callers racing on one `(rootURI, languageID)` cache key.  The
shared state is the cache slot for that key, the set of spawned clients and
which of them have been `Close`d; clients are numbered by a spawn counter so
that distinct spawns are distinct clients.  Each `m.mu.Lock() ... Unlock()`
region of the source is one atomic transition; the `NewClient` spawn happens
between the two locked regions and is its own transition, reflecting that
the lock is NOT held while spawning.  (`NewClient` failure, which simply
returns the error without touching the cache, is not modelled; the claims
quantify over successfully spawned clients.) -/

/-- The control state of one caller inside `ClientFor`:

* `start`        — before the first locked cache check (manager.go:41-46);
* `checkedMiss`  — first check missed, lock released, about to spawn;
* `spawned c`    — `NewClient` returned client `c` (manager.go:48), second
                   locked check still to come (manager.go:53-60);
* `done r`       — returned client `r`. -/
inductive TState
  | start
  | checkedMiss
  | spawned (c : Nat)
  | done (r : Nat)
  deriving DecidableEq, Repr

/-- The shared state for one cache key, plus every caller's control state.
`cache` is `m.byKey[k]`, `nextId` the spawn counter (spawned clients are
`0, ..., nextId - 1`), `closed` the clients on which `Close` was called. -/
structure MState (n : Nat) where
  cache : Option Nat
  nextId : Nat
  closed : List Nat
  threads : Fin n → TState

/-- All callers at the first check, nothing spawned, nothing cached. -/
def initState (n : Nat) : MState n :=
  { cache := none, nextId := 0, closed := [], threads := fun _ => TState.start }

/-- One interleaving step of the racing `ClientFor` callers. -/
inductive Step {n : Nat} : MState n → MState n → Prop
  /-- First locked check hits: return the cached client (manager.go:42-44). -/
  | hitFast (s : MState n) (t : Fin n) (c : Nat) :
      s.threads t = TState.start → s.cache = some c →
      Step s { s with threads := Function.update s.threads t (TState.done c) }
  /-- First locked check misses: release the lock (manager.go:46). -/
  | missFast (s : MState n) (t : Fin n) :
      s.threads t = TState.start → s.cache = none →
      Step s { s with threads := Function.update s.threads t TState.checkedMiss }
  /-- `NewClient` spawns a fresh client, without the lock (manager.go:48). -/
  | spawn (s : MState n) (t : Fin n) :
      s.threads t = TState.checkedMiss →
      Step s { s with
                threads := Function.update s.threads t (TState.spawned s.nextId)
                nextId := s.nextId + 1 }
  /-- Second locked check hits: another caller won the race; close own
  client, return the cached one (manager.go:54-57). -/
  | recheckHit (s : MState n) (t : Fin n) (c c' : Nat) :
      s.threads t = TState.spawned c → s.cache = some c' →
      Step s { s with
                threads := Function.update s.threads t (TState.done c')
                closed := c :: s.closed }
  /-- Second locked check misses: insert own client and return it
  (manager.go:59-61). -/
  | recheckMiss (s : MState n) (t : Fin n) (c : Nat) :
      s.threads t = TState.spawned c → s.cache = none →
      Step s { s with
                cache := some c
                threads := Function.update s.threads t (TState.done c) }

/-- States reachable from `n` callers all entering `ClientFor` together. -/
def Reachable {n : Nat} (s : MState n) : Prop :=
  Relation.ReflTransGen Step (initState n) s

/-- Client `c` has been spawned and not closed. -/
def SpawnedLive {n : Nat} (s : MState n) (c : Nat) : Prop :=
  c < s.nextId ∧ c ∉ s.closed

/-- The inductive invariant of the race. -/
structure ManagerInv {n : Nat} (s : MState n) : Prop where
  cacheAlloc : ∀ c, s.cache = some c → c < s.nextId ∧ c ∉ s.closed
  closedAlloc : ∀ c, c ∈ s.closed → c < s.nextId
  doneCached : ∀ t r, s.threads t = TState.done r → s.cache = some r
  spawnedOk : ∀ t c, s.threads t = TState.spawned c →
    c < s.nextId ∧ c ∉ s.closed ∧ s.cache ≠ some c
  spawnedUniq : ∀ t t' c, s.threads t = TState.spawned c →
    s.threads t' = TState.spawned c → t = t'
  allocCases : ∀ c, c < s.nextId →
    c ∈ s.closed ∨ s.cache = some c ∨ ∃ t, s.threads t = TState.spawned c

theorem update_eq_cases {n : Nat} (f : Fin n → TState) {t t' : Fin n} {v x : TState}
    (h : Function.update f t v t' = x) :
    (t' = t ∧ v = x) ∨ (t' ≠ t ∧ f t' = x) := by
  rcases eq_or_ne t' t with he | he
  · left
    refine ⟨he, ?_⟩
    subst he
    rwa [Function.update_same] at h
  · right
    exact ⟨he, by rwa [Function.update_noteq he] at h⟩

theorem managerInv_init (n : Nat) : ManagerInv (initState n) := by
  refine ⟨?_, ?_, ?_, ?_, ?_, ?_⟩ <;> intro c <;> simp [initState]

theorem managerInv_step {n : Nat} {s s' : MState n} (hstep : Step s s')
    (inv : ManagerInv s) : ManagerInv s' := by
  cases hstep with
  | hitFast t c ht hc =>
    refine ⟨inv.cacheAlloc, inv.closedAlloc, ?_, ?_, ?_, ?_⟩ <;> dsimp only
    · intro t' r h
      rcases update_eq_cases _ h with ⟨he, hv⟩ | ⟨hne, hold⟩
      · cases hv; exact hc
      · exact inv.doneCached t' r hold
    · intro t' c' h
      rcases update_eq_cases _ h with ⟨he, hv⟩ | ⟨hne, hold⟩
      · cases hv
      · exact inv.spawnedOk t' c' hold
    · intro t' t'' c' h h'
      rcases update_eq_cases _ h with ⟨he, hv⟩ | ⟨hne, hold⟩
      · cases hv
      rcases update_eq_cases _ h' with ⟨he', hv'⟩ | ⟨hne', hold'⟩
      · cases hv'
      exact inv.spawnedUniq t' t'' c' hold hold'
    · intro c' hlt
      rcases inv.allocCases c' hlt with hcl | hc' | ⟨t'', hsp⟩
      · exact Or.inl hcl
      · exact Or.inr (Or.inl hc')
      · refine Or.inr (Or.inr ⟨t'', ?_⟩)
        have hne : t'' ≠ t := by
          intro he; rw [he, ht] at hsp; cases hsp
        rw [Function.update_noteq hne]
        exact hsp
  | missFast t ht hc =>
    refine ⟨inv.cacheAlloc, inv.closedAlloc, ?_, ?_, ?_, ?_⟩ <;> dsimp only
    · intro t' r h
      rcases update_eq_cases _ h with ⟨he, hv⟩ | ⟨hne, hold⟩
      · cases hv
      · exact inv.doneCached t' r hold
    · intro t' c' h
      rcases update_eq_cases _ h with ⟨he, hv⟩ | ⟨hne, hold⟩
      · cases hv
      · exact inv.spawnedOk t' c' hold
    · intro t' t'' c' h h'
      rcases update_eq_cases _ h with ⟨he, hv⟩ | ⟨hne, hold⟩
      · cases hv
      rcases update_eq_cases _ h' with ⟨he', hv'⟩ | ⟨hne', hold'⟩
      · cases hv'
      exact inv.spawnedUniq t' t'' c' hold hold'
    · intro c' hlt
      rcases inv.allocCases c' hlt with hcl | hc' | ⟨t'', hsp⟩
      · exact Or.inl hcl
      · exact Or.inr (Or.inl hc')
      · refine Or.inr (Or.inr ⟨t'', ?_⟩)
        have hne : t'' ≠ t := by
          intro he; rw [he, ht] at hsp; cases hsp
        rw [Function.update_noteq hne]
        exact hsp
  | spawn t ht =>
    refine ⟨?_, ?_, ?_, ?_, ?_, ?_⟩ <;> dsimp only
    · intro c' hc'
      have := inv.cacheAlloc c' hc'
      exact ⟨by omega, this.2⟩
    · intro c' hc'
      have := inv.closedAlloc c' hc'
      omega
    · intro t' r h
      rcases update_eq_cases _ h with ⟨he, hv⟩ | ⟨hne, hold⟩
      · cases hv
      · exact inv.doneCached t' r hold
    · intro t' c' h
      rcases update_eq_cases _ h with ⟨he, hv⟩ | ⟨hne, hold⟩
      · cases hv
        refine ⟨by omega, ?_, ?_⟩
        · intro hmem
          have := inv.closedAlloc _ hmem
          omega
        · intro hcc
          have := inv.cacheAlloc _ hcc
          omega
      · have := inv.spawnedOk t' c' hold
        exact ⟨by omega, this.2.1, this.2.2⟩
    · intro t' t'' c' h h'
      rcases update_eq_cases _ h with ⟨he, hv⟩ | ⟨hne, hold⟩
      · rcases update_eq_cases _ h' with ⟨he', hv'⟩ | ⟨hne', hold'⟩
        · rw [he, he']
        · cases hv
          have := (inv.spawnedOk t'' _ hold').1
          omega
      · rcases update_eq_cases _ h' with ⟨he', hv'⟩ | ⟨hne', hold'⟩
        · cases hv'
          have := (inv.spawnedOk t' _ hold).1
          omega
        · exact inv.spawnedUniq t' t'' c' hold hold'
    · intro c' hlt
      rcases Nat.lt_or_ge c' s.nextId with hlt' | hge
      · rcases inv.allocCases c' hlt' with hcl | hc' | ⟨t'', hsp⟩
        · exact Or.inl hcl
        · exact Or.inr (Or.inl hc')
        · refine Or.inr (Or.inr ⟨t'', ?_⟩)
          have hne : t'' ≠ t := by
            intro he; rw [he, ht] at hsp; cases hsp
          rw [Function.update_noteq hne]
          exact hsp
      · have hc' : c' = s.nextId := by omega
        refine Or.inr (Or.inr ⟨t, ?_⟩)
        rw [Function.update_same, hc']
  | recheckHit t c c' ht hc =>
    have hok := inv.spawnedOk t c ht
    have hcc' : c' ≠ c := by
      intro he; rw [he] at hc; exact hok.2.2 hc
    refine ⟨?_, ?_, ?_, ?_, ?_, ?_⟩ <;> dsimp only
    · intro c'' hc''
      have := inv.cacheAlloc c'' hc''
      refine ⟨this.1, ?_⟩
      intro hmem
      rcases List.mem_cons.mp hmem with he | hmem'
      · rw [hc''] at hc
        cases hc
        exact hcc' he
      · exact this.2 hmem'
    · intro c'' hmem
      rcases List.mem_cons.mp hmem with he | hmem'
      · rw [he]; exact hok.1
      · exact inv.closedAlloc c'' hmem'
    · intro t' r h
      rcases update_eq_cases _ h with ⟨he, hv⟩ | ⟨hne, hold⟩
      · cases hv; exact hc
      · exact inv.doneCached t' r hold
    · intro t' c'' h
      rcases update_eq_cases _ h with ⟨he, hv⟩ | ⟨hne, hold⟩
      · cases hv
      · have := inv.spawnedOk t' c'' hold
        refine ⟨this.1, ?_, this.2.2⟩
        intro hmem
        rcases List.mem_cons.mp hmem with he | hmem'
        · rw [he] at hold
          exact hne (inv.spawnedUniq t' t c hold ht)
        · exact this.2.1 hmem'
    · intro t' t'' c'' h h'
      rcases update_eq_cases _ h with ⟨he, hv⟩ | ⟨hne, hold⟩
      · cases hv
      rcases update_eq_cases _ h' with ⟨he', hv'⟩ | ⟨hne', hold'⟩
      · cases hv'
      exact inv.spawnedUniq t' t'' c'' hold hold'
    · intro c'' hlt
      rcases inv.allocCases c'' hlt with hcl | hc'' | ⟨t'', hsp⟩
      · exact Or.inl (List.mem_cons_of_mem _ hcl)
      · exact Or.inr (Or.inl hc'')
      · rcases eq_or_ne t'' t with he | hne
        · rw [he, ht] at hsp
          cases hsp
          exact Or.inl (List.mem_cons_self _ _)
        · refine Or.inr (Or.inr ⟨t'', ?_⟩)
          rw [Function.update_noteq hne]
          exact hsp
  | recheckMiss t c ht hc =>
    have hok := inv.spawnedOk t c ht
    refine ⟨?_, inv.closedAlloc, ?_, ?_, ?_, ?_⟩ <;> dsimp only
    · intro c'' hc''
      cases hc''
      exact ⟨hok.1, hok.2.1⟩
    · intro t' r h
      rcases update_eq_cases _ h with ⟨he, hv⟩ | ⟨hne, hold⟩
      · cases hv; rfl
      · have := inv.doneCached t' r hold
        rw [hc] at this
        cases this
    · intro t' c'' h
      rcases update_eq_cases _ h with ⟨he, hv⟩ | ⟨hne, hold⟩
      · cases hv
      · have := inv.spawnedOk t' c'' hold
        refine ⟨this.1, this.2.1, ?_⟩
        intro hcc
        cases hcc
        exact hne (inv.spawnedUniq t' t _ hold ht)
    · intro t' t'' c'' h h'
      rcases update_eq_cases _ h with ⟨he, hv⟩ | ⟨hne, hold⟩
      · cases hv
      rcases update_eq_cases _ h' with ⟨he', hv'⟩ | ⟨hne', hold'⟩
      · cases hv'
      exact inv.spawnedUniq t' t'' c'' hold hold'
    · intro c'' hlt
      rcases inv.allocCases c'' hlt with hcl | hc'' | ⟨t'', hsp⟩
      · exact Or.inl hcl
      · rw [hc] at hc''; cases hc''
      · rcases eq_or_ne t'' t with he | hne
        · rw [he, ht] at hsp
          cases hsp
          exact Or.inr (Or.inl rfl)
        · refine Or.inr (Or.inr ⟨t'', ?_⟩)
          rw [Function.update_noteq hne]
          exact hsp

theorem managerInv_reachable {n : Nat} {s : MState n} (h : Reachable s) :
    ManagerInv s := by
  induction h with
  | refl => exact managerInv_init n
  | tail _ hstep ih => exact managerInv_step hstep ih

/-- The cache slot for a key is write-once: once some client is cached, no
step changes which. -/
theorem step_cache_mono {n : Nat} {s s' : MState n} (h : Step s s') {c : Nat}
    (hc : s.cache = some c) : s'.cache = some c := by
  cases h with
  | hitFast t c' ht hcc => exact hc
  | missFast t ht hcc => exact hc
  | spawn t ht => exact hc
  | recheckHit t c' c'' ht hcc => exact hc
  | recheckMiss t c' ht hcc => rw [hc] at hcc; cases hcc

theorem steps_cache_mono {n : Nat} {s s' : MState n}
    (h : Relation.ReflTransGen (@Step n) s s') {c : Nat}
    (hc : s.cache = some c) : s'.cache = some c := by
  induction h with
  | refl => exact hc
  | tail _ hstep ih => exact step_cache_mono hstep ih

/-- At quiescence — every caller returned — exactly one spawned client is
still unclosed, it is the cached one, and every caller returned it. -/
theorem quiescent_unique {n : Nat} {s : MState n} (h : Reachable s)
    (hdone : ∀ t, ∃ r, s.threads t = TState.done r) (t0 : Fin n) :
    ∃ r, s.cache = some r ∧ (∀ t, s.threads t = TState.done r) ∧
      SpawnedLive s r ∧ ∀ c, SpawnedLive s c → c = r := by
  have inv := managerInv_reachable h
  obtain ⟨r, hr⟩ := hdone t0
  have hcr : s.cache = some r := inv.doneCached t0 r hr
  refine ⟨r, hcr, ?_, ?_, ?_⟩
  · intro t
    obtain ⟨r', hr'⟩ := hdone t
    have := inv.doneCached t r' hr'
    rw [hcr] at this
    cases this
    exact hr'
  · exact ⟨(inv.cacheAlloc r hcr).1, (inv.cacheAlloc r hcr).2⟩
  · intro c hlive
    rcases inv.allocCases c hlive.1 with hcl | hcc | ⟨t', hsp⟩
    · exact absurd hcl hlive.2
    · rw [hcr] at hcc; cases hcc; rfl
    · obtain ⟨r', hr'⟩ := hdone t'
      rw [hr'] at hsp
      cases hsp

/-! ### Concrete runs of the manager race -/

/-- Two-caller race, after caller 0 missed the first check. -/
def race1 : MState 2 :=
  { initState 2 with
    threads := Function.update (initState 2).threads 0 TState.checkedMiss }

/-- ... and caller 1 missed the first check. -/
def race2 : MState 2 :=
  { race1 with threads := Function.update race1.threads 1 TState.checkedMiss }

/-- ... and caller 0 spawned client 0. -/
def race3 : MState 2 :=
  { race2 with
    threads := Function.update race2.threads 0 (TState.spawned race2.nextId)
    nextId := race2.nextId + 1 }

/-- ... and caller 1 spawned client 1: two spawned, unclosed clients exist
simultaneously. -/
def raceState : MState 2 :=
  { race3 with
    threads := Function.update race3.threads 1 (TState.spawned race3.nextId)
    nextId := race3.nextId + 1 }

theorem raceState_reachable : Reachable raceState :=
  Relation.ReflTransGen.tail
    (Relation.ReflTransGen.tail
      (Relation.ReflTransGen.tail
        (Relation.ReflTransGen.tail Relation.ReflTransGen.refl
          (Step.missFast (initState 2) 0 rfl rfl))
        (Step.missFast race1 1 (by decide) rfl))
      (Step.spawn race2 0 (by decide)))
    (Step.spawn race3 1 (by decide))

/-- Solo run: the single caller misses, spawns client 0. -/
def solo1 : MState 1 :=
  { initState 1 with
    threads := Function.update (initState 1).threads 0 TState.checkedMiss }

def solo2 : MState 1 :=
  { solo1 with
    threads := Function.update solo1.threads 0 (TState.spawned solo1.nextId)
    nextId := solo1.nextId + 1 }

/-- ... and inserts it at the second check: quiescent state. -/
def soloFinal : MState 1 :=
  { solo2 with
    cache := some 0
    threads := Function.update solo2.threads 0 (TState.done 0) }

theorem soloFinal_reachable : Reachable soloFinal :=
  Relation.ReflTransGen.tail
    (Relation.ReflTransGen.tail
      (Relation.ReflTransGen.tail Relation.ReflTransGen.refl
        (Step.missFast (initState 1) 0 rfl rfl))
      (Step.spawn solo1 0 (by decide)))
    (Step.recheckMiss solo2 0 0 (by decide) rfl)

/-! ### Remaining small helpers -/

theorem utf16OffsetToRune_zero (line : List Nat) : utf16OffsetToRune line 0 = 0 := by
  cases line <;> simp [utf16OffsetToRune, utf16OffsetToRuneGo]

theorem loadConfigLoop_none (readParse : List Char → Option Config) :
    ∀ l : List (List Char), (∀ p ∈ l, readParse p = none) →
      loadConfigLoop readParse l = none := by
  intro l hall
  induction l with
  | nil => rfl
  | cons p rest ih =>
    unfold loadConfigLoop
    rw [hall p (List.mem_cons_self p rest)]
    exact ih fun q hq => hall q (List.mem_cons_of_mem p hq)

theorem serverLoop_eq_find? :
    ∀ (l : List ServerEntry) (ext : List Char),
      serverLoop l ext = l.find? fun e => entryMatches e ext := by
  intro l ext
  induction l with
  | nil => simp [serverLoop]
  | cons e rest ih =>
    unfold serverLoop
    rw [List.find?_cons]
    split <;> rename_i hm
    · rw [hm]
    · rw [ih]
      have : entryMatches e ext = false := by
        cases hb : entryMatches e ext
        · rfl
        · exact absurd hb hm
      rw [this]

/-! ## The claims -/

/-- Claim C1 — codec round-trip: for every line `s` and every valid rune
column `c` with `0 ≤ c ≤ len(runes(s))`, `runeColToUTF16` followed by
`utf16OffsetToRune` yields `c` again (for ASCII, multi-byte and astral
codepoints alike — the statement is universal over all rune values). -/
theorem claim_C1 (s : List Nat) (c : Nat) (hc : c ≤ s.length) :
    utf16OffsetToRune s (runeColToUTF16 s c) = c :=
  utf16_roundtrip s c hc

/-- Witness for C1 on an ASCII-only line, a line of two- and three-byte codepoints
(`é`, `世`) and a line with an astral codepoint (`𝄞`, UTF-16 width 2). -/
theorem claim_C1_witness :
    (3 ≤ ([97, 98, 99] : List Nat).length ∧
      utf16OffsetToRune [97, 98, 99] (runeColToUTF16 [97, 98, 99] 3) = 3) ∧
    (2 ≤ ([0xE9, 0x4E16, 97] : List Nat).length ∧
      utf16OffsetToRune [0xE9, 0x4E16, 97]
        (runeColToUTF16 [0xE9, 0x4E16, 97] 2) = 2) ∧
    (1 ≤ ([0x1D11E, 97] : List Nat).length ∧
      utf16OffsetToRune [0x1D11E, 97] (runeColToUTF16 [0x1D11E, 97] 1) = 1) :=
  ⟨⟨by decide, claim_C1 [97, 98, 99] 3 (by decide)⟩,
   ⟨by decide, claim_C1 [0xE9, 0x4E16, 97] 2 (by decide)⟩,
   ⟨by decide, claim_C1 [0x1D11E, 97] 1 (by decide)⟩⟩

/-- Counterexample to C2 as stated: on the one-line text `"ab"` with the
out-of-range line number 1, the code returns the full rune length 2, while
the spec's clamp-the-line-into-range reading returns 0 (the inverse mapping
of character 0 on the clamped line 0). -/
theorem claim_C2_counterexample :
    offsetOfClaimSpec [97, 98] 1 0 = 0 ∧
    PositionToRuneOffset [97, 98] 1 0 = 2 ∧
    offsetOfClaimSpec [97, 98] 1 0 ≠ PositionToRuneOffset [97, 98] 1 0 := by
  decide

/-- Claim C2 as amended: `PositionToRuneOffset` splits the text into
newline-delimited lines; for an in-range line it converts the character via
the inverse UTF-16 mapping on that line and adds the rune length of all
preceding lines plus one per separator; for an out-of-range line it returns
the rune length of the whole text instead of converting on the clamped last
line. -/
theorem claim_C2 (text : List Nat) (line ch : Nat) :
    PositionToRuneOffset text line ch = offsetOfAmendedSpec text line ch := by
  unfold PositionToRuneOffset offsetOfAmendedSpec
  by_cases h : (splitLines text).length ≤ line
  · rw [if_pos h, if_neg (by omega)]
  · rw [if_neg h, if_pos (by omega), prevLinesLen_take _ _ (by omega)]

/-- Counterexample to C3 as stated: on the multi-line text `"𝄞x\nb"`, the
positions (0,1) and (0,2) increase lexicographically, both characters lie
within line 0's UTF-16 width (3), yet the offsets are equal (character 1
falls inside the surrogate pair of `𝄞`), so `PositionToRuneOffset` is not
strictly increasing in (line, character). -/
theorem claim_C3_counterexample :
    2 ≤ (splitLines [0x1D11E, 120, 10, 98]).length ∧
    1 ≤ runeColToUTF16 [0x1D11E, 120] 2 ∧
    2 ≤ runeColToUTF16 [0x1D11E, 120] 2 ∧
    PositionToRuneOffset [0x1D11E, 120, 10, 98] 0 1 =
      PositionToRuneOffset [0x1D11E, 120, 10, 98] 0 2 := by
  decide

/-- Claim C3 as amended: `PositionToRuneOffset(text, 0, 0) = 0` always, and
on a multi-line document the offset is strictly increasing as (line,
character) increases lexicographically over valid positions whose character
offset lies on a rune boundary of its line (character =
`runeColToUTF16(line, k)` for a rune column `k ≤ len(runes(line))`). -/
theorem claim_C3 :
    (∀ text : List Nat, PositionToRuneOffset text 0 0 = 0) ∧
    (∀ (text : List Nat) (l1 k1 l2 k2 : Nat),
      2 ≤ (splitLines text).length →
      l1 < (splitLines text).length → l2 < (splitLines text).length →
      k1 ≤ ((splitLines text).getD l1 []).length →
      k2 ≤ ((splitLines text).getD l2 []).length →
      (l1 < l2 ∨ (l1 = l2 ∧ k1 < k2)) →
      PositionToRuneOffset text l1
          (runeColToUTF16 ((splitLines text).getD l1 []) k1) <
        PositionToRuneOffset text l2
          (runeColToUTF16 ((splitLines text).getD l2 []) k2)) := by
  constructor
  · intro text
    unfold PositionToRuneOffset
    rw [if_neg (by have := splitLines_length_pos text; omega)]
    rw [utf16OffsetToRune_zero]
    rfl
  · intro text l1 k1 l2 k2 _ hl1 hl2 hk1 hk2 hlex
    rw [PositionToRuneOffset_boundary text l1 k1 hl1 hk1,
      PositionToRuneOffset_boundary text l2 k2 hl2 hk2]
    rcases hlex with hlt | ⟨heq, hklt⟩
    · have hstep : prevLinesLen (splitLines text) (l1 + 1) =
          prevLinesLen (splitLines text) l1 +
            ((splitLines text).getD l1 []).length + 1 := rfl
      have hmono := prevLinesLen_mono (splitLines text)
        (show l1 + 1 ≤ l2 by omega)
      omega
    · subst heq
      omega

/-- Witness for C3 on the two-line text `"a\nb"`: (0,0) before (1,1). -/
theorem claim_C3_witness :
    PositionToRuneOffset [97, 10, 98] 0
        (runeColToUTF16 ((splitLines [97, 10, 98]).getD 0 []) 0) <
      PositionToRuneOffset [97, 10, 98] 1
        (runeColToUTF16 ((splitLines [97, 10, 98]).getD 1 []) 1) :=
  claim_C3.2 [97, 10, 98] 0 0 1 1 (by decide) (by decide) (by decide)
    (by decide) (by decide) (Or.inl (by decide))

/-- Claim C4 — diagnostics routing resolution: registration and lookup both
key the handler map by `diagKey`, so registering under one URI and receiving
a push for any URI with the same canonical key invokes the handler; and
textually different but equivalent file URIs do get the same key — a
percent-encoded variant, a variant with relative path segments, and an
authority-carrying variant of `file:///a/b.go` are shown. -/
theorem claim_C4 :
    (∀ (H : Type) (c : ClientDiag H) (cwd u1 u2 : List Char) (h : H)
        (ds : List Diagnostic), diagKey cwd u1 = diagKey cwd u2 →
      (PublishDiagnostics (RegisterDiagnosticsHandler c cwd u1 (some h)) cwd
          (some ⟨u2, ds⟩)).2.1 = [(h, ds)]) ∧
    diagKey "/home/u".toList "file:///a/%62.go".toList =
      diagKey "/home/u".toList "file:///a/b.go".toList ∧
    diagKey "/home/u".toList "file:///x/../a/b.go".toList =
      diagKey "/home/u".toList "file:///a/b.go".toList ∧
    diagKey "/home/u".toList "file://localhost/a/b.go".toList =
      diagKey "/home/u".toList "file:///a/b.go".toList := by
  refine ⟨?_, by decide, by decide, by decide⟩
  intro H c cwd u1 u2 h ds heq
  unfold PublishDiagnostics RegisterDiagnosticsHandler
  dsimp only
  rw [if_pos heq.symm]

/-- Witness for C4: the percent-encoded registration URI routes the plain
push URI to the registered handler. -/
theorem claim_C4_witness :
    (PublishDiagnostics
        (RegisterDiagnosticsHandler (⟨fun _ => none⟩ : ClientDiag Nat)
          "/home/u".toList "file:///a/%62.go".toList (some 7))
        "/home/u".toList
        (some ⟨"file:///a/b.go".toList, []⟩)).2.1 = [(7, [])] :=
  claim_C4.1 Nat ⟨fun _ => none⟩ "/home/u".toList "file:///a/%62.go".toList
    "file:///a/b.go".toList 7 [] (by decide)

/-- Counterexample to C5 as stated ("at most one live client exists at any
time"): the state `raceState`, reachable from two concurrent `ClientFor`
callers, has the two distinct spawned clients 0 and 1 simultaneously live
(spawned and unclosed). -/
theorem claim_C5_counterexample :
    Reachable raceState ∧ raceState.cache = none ∧ raceState.closed = [] ∧
    raceState.threads 0 = TState.spawned 0 ∧
    raceState.threads 1 = TState.spawned 1 ∧
    SpawnedLive raceState 0 ∧ SpawnedLive raceState 1 :=
  ⟨raceState_reachable, rfl, rfl, by decide, by decide,
   ⟨by decide, by decide⟩, ⟨by decide, by decide⟩⟩

/-- Claim C5 as amended: along any execution of concurrent `ClientFor`
callers for one key, the cache is write-once (at most one client is ever
cached), and once every caller has returned, exactly one spawned client is
still unclosed — the cached one — and every caller returned it; before the
losers' second locked check, several spawned clients may transiently be
live.  (That the lock is not held during the spawn is reflected in the
model's structure: `Step.spawn` is a separate transition between the two
locked sections.) -/
theorem claim_C5 {n : Nat} (s s' : MState n) (hreach : Reachable s)
    (hsteps : Relation.ReflTransGen (@Step n) s s') :
    (∀ c, s.cache = some c → s'.cache = some c) ∧
    ((∀ t, ∃ r, s.threads t = TState.done r) → ∀ t0 : Fin n,
      ∃ r, s.cache = some r ∧ (∀ t, s.threads t = TState.done r) ∧
        SpawnedLive s r ∧ ∀ c, SpawnedLive s c → c = r) :=
  ⟨fun _ hc => steps_cache_mono hsteps hc,
   fun hdone t0 => quiescent_unique hreach hdone t0⟩

/-- Witness for C5: the quiescent state of a completed solo run has exactly
one live client, the cached client 0, returned by the caller. -/
theorem claim_C5_witness :
    ∃ r, soloFinal.cache = some r ∧
      (∀ t, soloFinal.threads t = TState.done r) ∧
      SpawnedLive soloFinal r ∧ ∀ c, SpawnedLive soloFinal c → c = r :=
  (claim_C5 soloFinal soloFinal soloFinal_reachable
      Relation.ReflTransGen.refl).2
    (by intro t; fin_cases t; exact ⟨0, by decide⟩) 0

/-- Claim C6 — diagnostic range clamping: every decoration emitted by
`applyDiagnostics` satisfies `start < end ≤ len(runes(text))`; a range whose
end position lies past the last line converts to the document end; a
zero-length converted range is widened to exactly `start + 1` when `start`
is before the document end, and dropped when it sits at the very end. -/
theorem claim_C6 (text : List Nat) (diags : List Diagnostic) (r : Range) :
    (∀ deco ∈ applyDiagnostics text diags,
      deco.start < deco.stop ∧ deco.stop ≤ text.length) ∧
    ((splitLines text).length ≤ r.endPos.line →
      (RangeToRuneOffsets text r).2 = text.length) ∧
    ((RangeToRuneOffsets text r).2 ≤ (RangeToRuneOffsets text r).1 →
      ((RangeToRuneOffsets text r).1 < text.length →
        decoSpan text r =
          some ((RangeToRuneOffsets text r).1,
            (RangeToRuneOffsets text r).1 + 1)) ∧
      ((RangeToRuneOffsets text r).1 = text.length →
        decoSpan text r = none)) := by
  refine ⟨?_, ?_, ?_⟩
  · intro deco hmem
    rw [applyDiagnostics, List.mem_filterMap] at hmem
    obtain ⟨d, _, hfd⟩ := hmem
    cases hsp : decoSpan text d.range with
    | none => rw [hsp] at hfd; cases hfd
    | some se =>
      rw [hsp] at hfd
      simp only [Option.map_some', Option.some.injEq] at hfd
      have := decoSpan_sound text d.range se.1 se.2 (by rw [hsp])
      rw [← hfd]
      exact this
  · intro hline
    show PositionToRuneOffset text r.endPos.line r.endPos.character = _
    unfold PositionToRuneOffset
    rw [if_pos hline]
  · intro hze
    rw [decoSpan_cases]
    constructor
    · intro hlt
      rw [if_neg (by omega), if_pos hlt]
    · intro hend
      rw [if_neg (by omega), if_neg (by omega)]

/-- Witness for C6: a diagnostic whose range runs past the end of line 1 of
`"a\nb"` produces the span (0,3) clamped to the document end; a zero-length
range at the very document end produces no decoration. -/
theorem claim_C6_witness :
    ((Decoration.mk DecorationSource 0 3 warningColor).start <
        (Decoration.mk DecorationSource 0 3 warningColor).stop ∧
      (Decoration.mk DecorationSource 0 3 warningColor).stop ≤
        ([97, 10, 98] : List Nat).length) ∧
    decoSpan [97, 10, 98] ⟨⟨1, 5⟩, ⟨1, 5⟩⟩ = none :=
  ⟨(claim_C6 [97, 10, 98] [⟨⟨⟨0, 0⟩, ⟨1, 5⟩⟩, 2⟩] ⟨⟨0, 0⟩, ⟨0, 0⟩⟩).1
      (Decoration.mk DecorationSource 0 3 warningColor) (by decide),
   ((claim_C6 [97, 10, 98] [] ⟨⟨1, 5⟩, ⟨1, 5⟩⟩).2.2 (by decide)).2 (by decide)⟩

/-- Claim C7 — completion candidate shaping: the candidate's insertion text
is the `textEdit`'s new text when present, else a non-empty `insertText`,
else the label; the format flag is `"Snippet"` exactly when the item's
`insertTextFormat` is Snippet and `"PlainText"` otherwise; in particular a
snippet-format item with a `textEdit` yields that edit's text marked as
snippet. -/
theorem claim_C7 :
    (∀ (item : CompletionItem) (caret : Nat),
      (completionItemToCandidate item caret).newText =
        (match item.textEdit with
         | some te => te.newText
         | none => if item.insertText ≠ "" then item.insertText
                   else item.label) ∧
      ((completionItemToCandidate item caret).textFormat = "Snippet" ↔
        item.insertTextFormat = InsertTextFormatSnippet) ∧
      ((completionItemToCandidate item caret).textFormat = "Snippet" ∨
        (completionItemToCandidate item caret).textFormat = "PlainText")) ∧
    (∀ (item : CompletionItem) (caret : Nat) (te : TextEdit),
      item.textEdit = some te →
      item.insertTextFormat = InsertTextFormatSnippet →
      (completionItemToCandidate item caret).newText = te.newText ∧
      (completionItemToCandidate item caret).textFormat = "Snippet") := by
  constructor
  · intro item caret
    refine ⟨rfl, ?_, ?_⟩
    · unfold completionItemToCandidate
      dsimp only
      by_cases hf : item.insertTextFormat = InsertTextFormatSnippet
      · rw [if_pos hf]
        exact ⟨fun _ => hf, fun _ => rfl⟩
      · rw [if_neg hf]
        exact ⟨fun hcon => absurd hcon (by decide), fun hcon => absurd hcon hf⟩
    · unfold completionItemToCandidate
      dsimp only
      by_cases hf : item.insertTextFormat = InsertTextFormatSnippet
      · rw [if_pos hf]; exact Or.inl rfl
      · rw [if_neg hf]; exact Or.inr rfl
  · intro item caret te hte hf
    unfold completionItemToCandidate
    dsimp only
    rw [hte, if_pos hf]
    exact ⟨rfl, rfl⟩

/-- Witness for C7: a Snippet-format item with `textEdit.newText = "fmt.%v"`
yields that text with the snippet flag. -/
theorem claim_C7_witness :
    (completionItemToCandidate
        ⟨"Println", "ins", some ⟨⟨⟨0, 0⟩, ⟨0, 0⟩⟩, "fmt.%v"⟩, 2, 3, "", none⟩
        5).newText = "fmt.%v" ∧
    (completionItemToCandidate
        ⟨"Println", "ins", some ⟨⟨⟨0, 0⟩, ⟨0, 0⟩⟩, "fmt.%v"⟩, 2, 3, "", none⟩
        5).textFormat = "Snippet" :=
  claim_C7.2 ⟨"Println", "ins", some ⟨⟨⟨0, 0⟩, ⟨0, 0⟩⟩, "fmt.%v"⟩, 2, 3, "", none⟩
    5 ⟨⟨⟨0, 0⟩, ⟨0, 0⟩⟩, "fmt.%v"⟩ rfl rfl

/-- Claim C8 — routing miss is not an error: a `publishDiagnostics`
notification whose normalized key has no registered handler returns a nil
error, invokes no handler and leaves the handler map unchanged. -/
theorem claim_C8 (H : Type) (c : ClientDiag H) (cwd uri : List Char)
    (ds : List Diagnostic)
    (hnone : c.diagHandlers (diagKey cwd uri) = none) :
    PublishDiagnostics c cwd (some ⟨uri, ds⟩) = (c, [], none) := by
  unfold PublishDiagnostics
  dsimp only
  rw [hnone]

/-- Witness for C8: an empty handler map drops a push without error. -/
theorem claim_C8_witness :
    PublishDiagnostics (⟨fun _ => none⟩ : ClientDiag Nat) "/home/u".toList
        (some ⟨"file:///a/b.go".toList, []⟩) =
      ((⟨fun _ => none⟩ : ClientDiag Nat), [], none) :=
  claim_C8 Nat ⟨fun _ => none⟩ "/home/u".toList "file:///a/b.go".toList [] rfl

/-- Claim C9 — default config scenario: with neither config file present
`LoadConfig` returns the built-in default registry, under which
`ServerForFile("main.go")` is the built-in Go entry (languageId `go`,
command `gopls`) and `ServerForFile("main.py")` is none; resolution
lowercases the file extension (and, case-insensitively, each registered
extension) and returns the first entry whose extension set contains it. -/
theorem claim_C9 :
    (∀ (readParse : List Char → Option Config) (projectRoot : List Char)
        (userConfigDir : Option (List Char)),
      (∀ p ∈ configCandidatePaths projectRoot userConfigDir,
        readParse p = none) →
      LoadConfig readParse projectRoot userConfigDir = DefaultConfig) ∧
    DefaultConfig.ServerForFile "main.go".toList =
      some ⟨"go".toList, [".go".toList], "gopls".toList, []⟩ ∧
    DefaultConfig.ServerForFile "main.py".toList = none ∧
    (∀ (cfg : Config) (path : List Char),
      cfg.ServerForFile path =
        cfg.servers.find? fun e =>
          e.extensions.any fun x => ToLower x == ToLower (Ext path)) := by
  refine ⟨?_, by decide, by decide, ?_⟩
  · intro readParse projectRoot userConfigDir hall
    unfold LoadConfig
    rw [loadConfigLoop_none readParse _ hall]
  · intro cfg path
    exact serverLoop_eq_find? cfg.servers (ToLower (Ext path))

/-- Witness for C9: with no readable config file at either candidate path,
loading yields the default registry. -/
theorem claim_C9_witness :
    LoadConfig (fun _ => none) "/proj".toList (some "/home/u/.config".toList) =
      DefaultConfig :=
  claim_C9.1 (fun _ => none) "/proj".toList (some "/home/u/.config".toList)
    (fun _ _ => rfl)

/-- Claim C10 — implicit bounds: `PositionToRuneOffset` always lands in
`[0, len(runes(text))]` (the lower bound holds by the `Nat` valuation: every
quantity the code computes is a sum of nonnegative counts), hence both
endpoints returned by `RangeToRuneOffsets` are in-bounds rune indices. -/
theorem claim_C10 (text : List Nat) (line ch : Nat) (r : Range) :
    PositionToRuneOffset text line ch ≤ text.length ∧
    (RangeToRuneOffsets text r).1 ≤ text.length ∧
    (RangeToRuneOffsets text r).2 ≤ text.length :=
  ⟨PositionToRuneOffset_le text line ch,
   PositionToRuneOffset_le text r.start.line r.start.character,
   PositionToRuneOffset_le text r.endPos.line r.endPos.character⟩

end Void
